import Mathlib

/-
Verification of the stroke-recognizer core (src/main.rs).

Shallow embedding conventions:
* `f32` coordinate arithmetic is modelled exactly over `ℚ` (the matcher,
  normalization and template-store code use only field operations and order
  comparisons); the rounding of `f32` is idealized away.
* The `f32::MAX` sentinel used to seed running minima is modelled as
  `⊤ : WithTop ℚ`.
* A Rust panic (out-of-bounds `Vec` indexing, `swap_remove` on an empty
  vector) is modelled by `Option`: `none` means the code panics.
* Euclidean arc length in `resample` needs a square root, so that one
  component is modelled over `ℝ` (`Real.sqrt`), mirroring `Vec2::distance`.
* `HashMap<String, HashSet<Template>>` is modelled as an association list of
  labels to duplicate-free lists of templates; `HashSet::insert` becomes an
  append-if-absent.
-/

namespace StrokeRec

/-- A 2-D point (`bevy::Vec2`) with exact coordinates. -/
abbrev Point := ℚ × ℚ

/-- Source `Vec2::distance_squared`: squared Euclidean distance. -/
def dsq (p q : Point) : ℚ := (p.1 - q.1) ^ 2 + (p.2 - q.2) ^ 2

/-- Constant `N_RESAMPLED_POINTS` from src/main.rs. -/
def N_RESAMPLED_POINTS : ℕ := 32

/-- A stored template's point sequence (`Template(Vec<Vec2>)`, field `.0`). -/
abbrev Template := List Point

/-- The template store `StrokeTemplates(HashMap<String, HashSet<Template>>)`,
as an association list from label to the templates stored under it. -/
abbrev Store := List (String × List Template)

/-- The weight value at index `j`: `1 - j/N` (the loop body of `get_weights`). -/
def weightAt (j : ℕ) : ℚ := 1 - (j : ℚ) / (N_RESAMPLED_POINTS : ℚ)

/-- Function `get_weights` from src/main.rs: the array with `weights[i] = 1 - i/N`. -/
def get_weights : List ℚ :=
  (List.range N_RESAMPLED_POINTS).map weightAt

/-- Rust `Vec::swap_remove(i)`: replace element `i` with the last element and
pop the last; panics (`none`) when `i` is out of bounds (in particular on an
empty vector). -/
def swapRemove (l : List Point) (i : ℕ) : Option (List Point) :=
  match l.getLast? with
  | none => none
  | some last => if i < l.length then some ((l.set i last).dropLast) else none

/-- The `template.iter().enumerate().for_each(..)` scan inside
`greedy_5_eval_nearest`: running pair `(nearest_dist, nearest_point_index)`
seeded with `(f32::MAX, 0)`; `weights[j]` is a fallible array access. -/
def evalScan (c : Point) : List Point → ℕ → WithTop ℚ × ℕ → Option (WithTop ℚ × ℕ)
  | [], _, acc => some acc
  | t :: rest, j, acc =>
    match get_weights.get? j with
    | none => none
    | some w =>
      evalScan c rest (j + 1)
        (if ((w * dsq c t : ℚ) : WithTop ℚ) < acc.1
         then (((w * dsq c t : ℚ) : WithTop ℚ), j) else acc)

/-- Function `greedy_5_eval_nearest` from src/main.rs: scan the mutable working copy
`template` for the remaining point minimizing `weights[j] * d²` against
`candidate[candidate_index]`, remove it by `swap_remove`, and return the
charged cost together with the shrunk working copy.  `candidate[..]` is a
fallible access (the closure reads it on every iteration, so it is forced
exactly when the working copy is nonempty; when the copy is empty the
unconditional `swap_remove(0)` panics instead — both are `none` here). -/
def greedy_5_eval_nearest (candidate_index : ℕ) (template candidate : List Point) :
    Option (WithTop ℚ × List Point) := do
  let c ← candidate.get? candidate_index
  let st ← evalScan c template 0 ((⊤ : WithTop ℚ), 0)
  let template' ← swapRemove template st.2
  some (st.1, template')

/-- The wrapped index order of one starting offset in `greedy_5`:
`for i in starting_point..N` followed by `for i in 0..starting_point`. -/
def wrapIdxs (s : ℕ) : List ℕ :=
  List.range' s (N_RESAMPLED_POINTS - s) ++ List.range s

/-- The per-offset loop body of `greedy_5`, threading both interleaved greedy
passes exactly as the source does: state is
`(total_distance_1, template_p_clone, total_distance_2, resampled_p_clone)`. -/
def runPasses (cand tmpl : List Point) :
    List ℕ → WithTop ℚ × List Point × WithTop ℚ × List Point →
    Option (WithTop ℚ × List Point × WithTop ℚ × List Point)
  | [], st => some st
  | i :: rest, st =>
    match greedy_5_eval_nearest i st.2.1 cand, greedy_5_eval_nearest i st.2.2.2 tmpl with
    | some r1, some r2 =>
        runPasses cand tmpl rest (st.1 + r1.1, r1.2, st.2.2.1 + r2.1, r2.2)
    | _, _ => none

/-- The candidate cost of one starting offset:
`min(total_distance_1, total_distance_2)` after both greedy passes. -/
def offsetCost (cand tmpl : List Point) (s : ℕ) : Option (WithTop ℚ) :=
  (runPasses cand tmpl (wrapIdxs s) (0, tmpl, 0, cand)).map
    (fun st => min st.1 st.2.2.1)

/-- A single greedy pass on its own (the spec's `cost_forward`, §4.2): the
points of `a` are consumed in the given index order against a mutable working
copy of `b`.  This is the untangled projection of `runPasses`. -/
def passLoop (a : List Point) : List ℕ → WithTop ℚ × List Point →
    Option (WithTop ℚ × List Point)
  | [], st => some st
  | i :: rest, st =>
    match greedy_5_eval_nearest i st.2 a with
    | none => none
    | some r => passLoop a rest (st.1 + r.1, r.2)

/-- The cost of one greedy pass of `a` against a working copy of `b`, at
starting offset `s` (the spec's `cost_forward(a, b, s)`). -/
def passCost (a b : List Point) (s : ℕ) : Option (WithTop ℚ) :=
  (passLoop a (wrapIdxs s) (0, b)).map Prod.fst

/-- Total version of `passCost` (defaulting the panic case to `⊤`), used to
state minima over offsets. -/
def passCostD (a b : List Point) (s : ℕ) : WithTop ℚ :=
  (passCost a b s).getD ⊤

/-- The `for starting_point in 0..n_starting_points` loop of `greedy_5`:
`least_distance` seeded with `f32::MAX` and lowered by each offset's cost. -/
def offsetLoop (cand tmpl : List Point) : List ℕ → WithTop ℚ → Option (WithTop ℚ)
  | [], least => some least
  | s :: rest, least =>
    match offsetCost cand tmpl s with
    | none => none
    | some c => offsetLoop cand tmpl rest (min least c)

/-- The elastic distance between one candidate and one template, trying
`n` starting offsets (the per-template block of `greedy_5`). -/
def strokeDistance (cand tmpl : List Point) (n : ℕ) : Option (WithTop ℚ) :=
  offsetLoop cand tmpl (List.range n) ⊤

/-- The inner `for stroke in stroke.iter()` loop of `greedy_5`: for each
template under the current label, compare its distance with the best seen so
far (`least_shape_distance`, `nearest_shape_name`). -/
def templateLoop (cand : List Point) (n : ℕ) (name : String) :
    List Template → WithTop ℚ × String → Option (WithTop ℚ × String)
  | [], acc => some acc
  | t :: rest, acc =>
    match strokeDistance cand t n with
    | none => none
    | some d =>
      templateLoop cand n name rest (if d < acc.1 then (d, name) else acc)

/-- The outer `for (name, stroke) in templates.0.iter()` loop of `greedy_5`. -/
def storeLoop (cand : List Point) (n : ℕ) :
    Store → WithTop ℚ × String → Option (WithTop ℚ × String)
  | [], acc => some acc
  | e :: rest, acc =>
    match templateLoop cand n e.1 e.2 acc with
    | none => none
    | some acc' => storeLoop cand n rest acc'

/-- Function `greedy_5` with the number of starting offsets already computed:
the accumulator is `(least_shape_distance, nearest_shape_name)`, seeded with
`(f32::MAX, "not recognized")`. -/
def greedy5_core (store : Store) (resampled_points : List Point) (n : ℕ) :
    Option String :=
  (storeLoop resampled_points n store ((⊤ : WithTop ℚ), "not recognized")).map
    Prod.snd

/-- Offset count `n_starting_points = (N as f32).powf(epsilon).ceil() as usize`. -/
noncomputable def nStarts (epsilon : ℝ) : ℕ :=
  ⌈(N_RESAMPLED_POINTS : ℝ) ^ epsilon⌉₊

/-- Function `greedy_5` from src/main.rs. -/
noncomputable def greedy_5 (store : Store) (resampled_points : List Point)
    (epsilon : ℝ) : Option String :=
  greedy5_core store resampled_points (nStarts epsilon)

/-- Division as `f32` behaves on finite operands: a zero divisor produces a
non-finite value (`±inf` or `NaN`), modelled as `none`; otherwise the exact
quotient. -/
def qdiv (a b : ℚ) : Option ℚ := if b = 0 then none else some (a / b)

/-- Function `get_centroid` from src/main.rs: coordinate sums divided by the length.
(Only ever applied to nonempty lists in `scale_and_translate`.) -/
def get_centroid (points : List Point) : Point :=
  ((points.map Prod.fst).sum / (points.length : ℚ),
   (points.map Prod.snd).sum / (points.length : ℚ))

/-- The scaling loop of `scale_and_translate`: divide every coordinate's
offset from the box minimum by `scale`; any non-finite division makes the
whole result non-finite (`none`). -/
def scalePoints (minX minY scale : ℚ) : List Point → Option (List Point)
  | [] => some []
  | q :: rest => do
    let x ← qdiv (q.1 - minX) scale
    let y ← qdiv (q.2 - minY) scale
    let rest' ← scalePoints minX minY scale rest
    some ((x, y) :: rest')

/-- Function `scale_and_translate` from src/main.rs: bounding box (min/max folds seeded
with `f32::MAX`/`f32::MIN`, which for a nonempty list of finite points is the
plain min/max), uniform division of the offsets from the box minimum by
`scale = max(width, height)`, then subtraction of the centroid.  The divisions
go through `qdiv`, so a degenerate box (`scale = 0`) yields `none` (the `f32`
code produces non-finite coordinates there).  On an empty list the source's
loops never execute, so it returns the empty list unchanged. -/
def scale_and_translate : List Point → Option (List Point)
  | [] => some []
  | p :: rest =>
    let pts := p :: rest
    let minX := pts.foldl (fun m q => min m q.1) p.1
    let minY := pts.foldl (fun m q => min m q.2) p.2
    let maxX := pts.foldl (fun m q => max m q.1) p.1
    let maxY := pts.foldl (fun m q => max m q.2) p.2
    let scale := max (maxX - minX) (maxY - minY)
    do
      let scaled ← scalePoints minX minY scale pts
      let c := get_centroid scaled
      pure (scaled.map (fun q => (q.1 - c.1, q.2 - c.2)))

/-- A 2-D point with real coordinates, for the arc-length computations of
`resample` (Euclidean distance needs a square root). -/
abbrev RPoint := ℝ × ℝ

/-- Source `Vec2::distance`: Euclidean distance, over `ℝ`. -/
noncomputable def rdist (p q : RPoint) : ℝ :=
  Real.sqrt ((p.1 - q.1) ^ 2 + (p.2 - q.2) ^ 2)

/-- Source `Vec2::lerp(other, s) = self + (other - self) * s`. -/
def rlerp (p q : RPoint) (s : ℝ) : RPoint :=
  (p.1 + (q.1 - p.1) * s, p.2 + (q.2 - p.2) * s)

/-- The inner `while` loop of `resample`: emit interpolated points while the
current segment (plus carried distance) reaches the next `increment`, and
fewer than `N` points have been emitted.  Each iteration pushes exactly one
point, so `N - acc.length` is a termination measure.  Returns the updated
`(resampled_points, accumulated_distance, previous_point)`. -/
noncomputable def resampleWhile (increment : ℝ) (acc : List RPoint)
    (accDist : ℝ) (prev cur : RPoint) : List RPoint × ℝ × RPoint :=
  if _h : increment ≤ rdist prev cur + accDist ∧ acc.length < N_RESAMPLED_POINTS then
    resampleWhile increment
      (acc ++ [rlerp prev cur ((increment - accDist) / rdist prev cur)]) 0
      (rlerp prev cur ((increment - accDist) / rdist prev cur)) cur
  else (acc, accDist, prev)
termination_by N_RESAMPLED_POINTS - acc.length
decreasing_by
  simp only [List.length_append, List.length_cons, List.length_nil]
  omega

/-- The `for i in 1..candidate_points.len()` loop of `resample`: walk the
consecutive point pairs of one stroke, threading
`(resampled_points, accumulated_distance, previous_point)`; after the `while`,
the residual segment length is carried into the accumulator and the cursor
moves to the current point. -/
noncomputable def resampleSegLoop (increment : ℝ) :
    List RPoint → List RPoint × ℝ × RPoint → List RPoint × ℝ × RPoint
  | [], st => st
  | cur :: rest, st =>
    resampleSegLoop increment rest
      (let w := resampleWhile increment st.1 st.2.1 st.2.2 cur
       (w.1, w.2.1 + rdist w.2.2 cur, cur))

/-- The emission phase of `resample` (everything before the final trim): each
stroke with more than one point first pushes its starting point, then walks
its segments. -/
noncomputable def resampleWalk (candidate_vectors : List (List RPoint))
    (total_length : ℝ) : List RPoint :=
  candidate_vectors.foldl
    (fun acc pts =>
      match pts with
      | p0 :: p1 :: rest =>
        (resampleSegLoop (total_length / (N_RESAMPLED_POINTS : ℝ)) (p1 :: rest)
          (acc ++ [p0], 0, p0)).1
      | _ => acc)
    []

/-- The final `while resampled_points.len() > N { pop }` loop of `resample`:
drop elements from the end while more than `n` remain. -/
def trimTo {α : Type} (n : ℕ) (l : List α) : List α :=
  if n < l.length then trimTo n l.dropLast else l
termination_by l.length
decreasing_by
  simp only [List.length_dropLast]
  omega

/-- Function `resample` from src/main.rs: the emission walk followed by the trim. -/
noncomputable def resample (candidate_vectors : List (List RPoint))
    (total_length : ℝ) : List RPoint :=
  trimTo N_RESAMPLED_POINTS (resampleWalk candidate_vectors total_length)

/-- Operation `HashSet::insert` on a duplicate-free list: a no-op when the value is
already present. -/
def setInsert (s : List Template) (pts : Template) : List Template :=
  if pts ∈ s then s else s ++ [pts]

/-- The store update of `textbox_input_listener`: insert into the label's set
when the label exists (`get_mut`), otherwise create a fresh singleton set. -/
def storeInsert : Store → String → Template → Store
  | [], label, pts => [(label, [pts])]
  | e :: rest, label, pts =>
    if e.1 = label then (e.1, setInsert e.2 pts) :: rest
    else e :: storeInsert rest label pts

/-- Membership of a point sequence in the set stored under `label` (lookup
semantics: the first entry with the label decides, as in a `HashMap`). -/
def storeMemB : Store → String → Template → Bool
  | [], _, _ => false
  | e :: rest, label, pts =>
    if e.1 = label then decide (pts ∈ e.2) else storeMemB rest label pts

/-- Propositional form of `storeMemB`. -/
def storeMem (s : Store) (label : String) (pts : Template) : Prop :=
  storeMemB s label pts = true

/-- The core of `textbox_input_listener` from src/main.rs: given the submitted
label and the candidate's resampled points, either store the template (when it
has exactly `N` points) or reject; returns the new store and the result
text. -/
def textbox_input_listener (store : Store) (label : String)
    (resampled_points : Template) : Store × String :=
  if resampled_points.length = N_RESAMPLED_POINTS then
    (storeInsert store label resampled_points, label ++ " gesture added!")
  else
    (store, "Gesture drawn has too little resampled points (< 32)")

/-- A concrete 32-point canonical sequence, used as a test template. -/
def T32 : Template := (List.range 32).map (fun k => ((k : ℚ), (0 : ℚ)))

/-- The weighted squared distance charged when the point at current working
index `j` is matched: `weights[j] * d²`. -/
def wcost (c t : Point) (j : ℕ) : ℚ := weightAt j * dsq c t

/-- Total version of `offsetCost` (defaulting the panic case to `⊤`). -/
def offsetCostD (cand tmpl : List Point) (s : ℕ) : WithTop ℚ :=
  (offsetCost cand tmpl s).getD ⊤

/-- C3's reading of the spec, as a definition: the cost charged for a consumed
candidate point is `weights[numConsumed] * d²` where `numConsumed` is the
0-based rank in consumption order — a constant weight during the scan, so the
matched point simply minimizes the squared distance. -/
def chargedCostSpec (numConsumed : ℕ) (c : Point) (work : List Point) : Option ℚ :=
  match get_weights.get? numConsumed, work.map (fun t => dsq c t) with
  | some w, d :: ds => some (w * ds.foldl min d)
  | _, _ => none

/-! ### Basic facts about weights and squared distances -/

theorem get_weights_get? {j : ℕ} (h : j < N_RESAMPLED_POINTS) :
    get_weights.get? j = some (weightAt j) := by
  rw [get_weights, List.get?_map, List.get?_range h]
  rfl

theorem weightAt_pos {j : ℕ} (h : j < N_RESAMPLED_POINTS) : 0 < weightAt j := by
  have hj : (j : ℚ) < 32 := by
    exact_mod_cast (by simpa [N_RESAMPLED_POINTS] using h : j < 32)
  have h32 : ((N_RESAMPLED_POINTS : ℕ) : ℚ) = 32 := by
    norm_num [N_RESAMPLED_POINTS]
  rw [weightAt, h32, sub_pos, div_lt_one (by norm_num)]
  exact hj

theorem dsq_nonneg (p q : Point) : 0 ≤ dsq p q :=
  add_nonneg (sq_nonneg _) (sq_nonneg _)

theorem dsq_self (p : Point) : dsq p p = 0 := by simp [dsq]

theorem wcost_nonneg {j : ℕ} (h : j < N_RESAMPLED_POINTS) (c t : Point) :
    0 ≤ wcost c t j :=
  mul_nonneg (le_of_lt (weightAt_pos h)) (dsq_nonneg c t)

theorem dsq_eq_zero_iff {p q : Point} : dsq p q = 0 ↔ p = q := by
  constructor
  · intro h
    have h1 : (p.1 - q.1) ^ 2 = 0 ∧ (p.2 - q.2) ^ 2 = 0 :=
      (add_eq_zero_iff_of_nonneg (sq_nonneg _) (sq_nonneg _)).mp h
    have e1 : p.1 = q.1 := sub_eq_zero.mp (sq_eq_zero_iff.mp h1.1)
    have e2 : p.2 = q.2 := sub_eq_zero.mp (sq_eq_zero_iff.mp h1.2)
    exact Prod.ext e1 e2
  · intro h; subst h; exact dsq_self p

/-! ### `swap_remove` -/

theorem perm_get_cons_eraseIdx :
    ∀ (l : List Point) (i : ℕ) (t : Point), l.get? i = some t →
      l.Perm (t :: l.eraseIdx i)
  | [], i, t, h => by simp at h
  | x :: xs, 0, t, h => by
    simp only [List.get?_cons_zero, Option.some.injEq] at h
    subst h
    simp [List.eraseIdx]
  | x :: xs, i + 1, t, h => by
    have ih := perm_get_cons_eraseIdx xs i t (by simpa using h)
    have : (x :: xs).Perm (x :: (t :: xs.eraseIdx i)) := ih.cons x
    exact this.trans (List.Perm.swap t x _)

theorem set_last_dropLast_perm :
    ∀ (l : List Point) (i : ℕ) (z : Point), l.getLast? = some z →
      i < l.length → ((l.set i z).dropLast).Perm (l.eraseIdx i)
  | [], i, z, h, hi => by simp at h
  | [x], 0, z, h, hi => by
    simp only [List.getLast?_singleton, Option.some.injEq] at h
    subst h
    simp [List.eraseIdx]
  | x :: y :: ys, 0, z, h, hi => by
    rw [List.getLast?_cons_cons] at h
    have hz : z = (y :: ys).getLast (by simp) := by
      rcases List.mem_getLast?_eq_getLast (by simp [h] : z ∈ (y :: ys).getLast?) with ⟨_, hz⟩
      simpa using hz
    show (z :: (y :: ys)).dropLast.Perm (y :: ys)
    have hd : (z :: (y :: ys)).dropLast = z :: (y :: ys).dropLast := by
      simp [List.dropLast_cons₂]
    rw [hd]
    have : (y :: ys).dropLast ++ [z] = y :: ys := by
      rw [hz]; exact List.dropLast_append_getLast (by simp)
    calc (z :: (y :: ys).dropLast).Perm ((y :: ys).dropLast ++ [z]) :=
          (List.perm_append_singleton z _).symm
      _ = y :: ys := this
  | x :: y :: ys, i + 1, z, h, hi => by
    rw [List.getLast?_cons_cons] at h
    have hi' : i < (y :: ys).length := by simpa using hi
    have ih := set_last_dropLast_perm (y :: ys) i z h hi'
    show ((x :: (y :: ys).set i z).dropLast).Perm (x :: (y :: ys).eraseIdx i)
    have hne : (y :: ys).set i z ≠ [] := by
      intro hc
      have := congrArg List.length hc
      simp at this
    have hd : (x :: (y :: ys).set i z).dropLast = x :: ((y :: ys).set i z).dropLast := by
      rcases hw : (y :: ys).set i z with _ | ⟨a, as⟩
      · exact absurd hw hne
      · simp [List.dropLast_cons₂]
    rw [hd]
    exact ih.cons x

theorem swapRemove_eq {l : List Point} {i : ℕ} (hi : i < l.length) :
    ∃ l', swapRemove l i = some l' ∧ l'.Perm (l.eraseIdx i) ∧
      l'.length + 1 = l.length := by
  have hne : l ≠ [] := by
    intro hc; subst hc; simp at hi
  rcases hz : l.getLast? with _ | z
  · rw [List.getLast?_eq_getLast l hne] at hz
    simp at hz
  · refine ⟨(l.set i z).dropLast, ?_, set_last_dropLast_perm l i z hz hi, ?_⟩
    · simp [swapRemove, hz, hi]
    · have h1 : (l.set i z).length = l.length := List.length_set l i z
      have h2 : ((l.set i z).dropLast).length = (l.set i z).length - 1 :=
        List.length_dropLast _
      omega

/-! ### The scan of `greedy_5_eval_nearest` -/

theorem evalScan_spec (c : Point) :
    ∀ (ts : List Point) (j : ℕ) (acc : WithTop ℚ × ℕ),
      j + ts.length ≤ N_RESAMPLED_POINTS →
      ∃ st, evalScan c ts j acc = some st ∧
        (st = acc ∨ ∃ k t, ts.get? k = some t ∧ st.2 = j + k ∧
            st.1 = ((wcost c t (j + k) : ℚ) : WithTop ℚ)) ∧
        st.1 ≤ acc.1 ∧
        (∀ k t, ts.get? k = some t → st.1 ≤ ((wcost c t (j + k) : ℚ) : WithTop ℚ)) := by
  intro ts
  induction ts with
  | nil =>
    intro j acc h
    refine ⟨acc, rfl, Or.inl rfl, le_refl _, ?_⟩
    intro k t hk
    simp at hk
  | cons t0 rest ih =>
    intro j acc h
    have hj : j < N_RESAMPLED_POINTS := by
      simp only [List.length_cons] at h
      omega
    have hw := get_weights_get? hj
    have hstep : evalScan c (t0 :: rest) j acc =
        evalScan c rest (j + 1)
          (if ((wcost c t0 j : ℚ) : WithTop ℚ) < acc.1
           then (((wcost c t0 j : ℚ) : WithTop ℚ), j) else acc) := by
      rw [evalScan, hw]
      exact rfl
    set acc1 := (if ((wcost c t0 j : ℚ) : WithTop ℚ) < acc.1
           then (((wcost c t0 j : ℚ) : WithTop ℚ), j) else acc) with hacc1
    have hrest : (j + 1) + rest.length ≤ N_RESAMPLED_POINTS := by
      simp only [List.length_cons] at h
      omega
    obtain ⟨st, hrun, horigin, hle, hbound⟩ := ih (j + 1) acc1 hrest
    have hacc1_le : acc1.1 ≤ acc.1 := by
      rw [hacc1]
      split
      · exact le_of_lt (by assumption)
      · exact le_refl _
    have hacc1_le2 : acc1.1 ≤ ((wcost c t0 j : ℚ) : WithTop ℚ) := by
      rw [hacc1]
      split
      · exact le_refl _
      · exact le_of_not_lt (by assumption)
    refine ⟨st, by rw [hstep]; exact hrun, ?_, le_trans hle hacc1_le, ?_⟩
    · rcases horigin with hst | ⟨k, t, hk, h2, h1⟩
      · rw [hacc1] at hst
        by_cases hlt : ((wcost c t0 j : ℚ) : WithTop ℚ) < acc.1
        · rw [if_pos hlt] at hst
          refine Or.inr ⟨0, t0, rfl, ?_, ?_⟩
          · rw [hst]
            exact rfl
          · rw [hst]
            exact rfl
        · rw [if_neg hlt] at hst
          exact Or.inl hst
      · refine Or.inr ⟨k + 1, t, by simpa using hk, ?_, ?_⟩
        · rw [h2]; omega
        · rw [h1]
          have : (j + 1) + k = j + (k + 1) := by omega
          rw [this]
    · intro k t hk
      cases k with
      | zero =>
        simp only [List.get?_cons_zero, Option.some.injEq] at hk
        subst hk
        exact le_trans hle hacc1_le2
      | succ k =>
        have hb := hbound k t (by simpa using hk)
        have : (j + 1) + k = j + (k + 1) := by omega
        rw [this] at hb
        exact hb

theorem greedy_5_eval_nearest_spec {cIdx : ℕ} {work cand : List Point} {c : Point}
    (hc : cand.get? cIdx = some c) (hne : work ≠ [])
    (hlen : work.length ≤ N_RESAMPLED_POINTS) :
    ∃ (m : ℚ) (j0 : ℕ) (t0 : Point) (work' : List Point),
      greedy_5_eval_nearest cIdx work cand = some (((m : ℚ) : WithTop ℚ), work') ∧
      work.get? j0 = some t0 ∧ m = wcost c t0 j0 ∧ j0 < work.length ∧
      (∀ k t, work.get? k = some t → m ≤ wcost c t k) ∧
      work'.Perm (work.eraseIdx j0) ∧ work'.length + 1 = work.length := by
  obtain ⟨st, hscan, horigin, hle, hbound⟩ :=
    evalScan_spec c work 0 ((⊤ : WithTop ℚ), 0) (by simpa using hlen)
  rcases hwk : work with _ | ⟨w0, wrest⟩
  · exact absurd hwk hne
  subst hwk
  have hb0 : st.1 ≤ ((wcost c w0 (0 + 0) : ℚ) : WithTop ℚ) := hbound 0 w0 rfl
  have hstlt : st.1 < ⊤ := lt_of_le_of_lt hb0 (WithTop.coe_lt_top _)
  rcases horigin with hst | ⟨k, t, hk, h2, h1⟩
  · rw [hst] at hstlt
    exact absurd hstlt (lt_irrefl _)
  · rw [zero_add] at h1 h2
    have hklt : k < (w0 :: wrest).length := (List.get?_eq_some.mp hk).1
    obtain ⟨l', hsw, hperm, hlen'⟩ :=
      swapRemove_eq (l := w0 :: wrest) (i := st.2) (by rw [h2]; exact hklt)
    refine ⟨wcost c t k, k, t, l', ?_, hk, rfl, hklt, ?_, ?_, ?_⟩
    · rw [← h1]
      simp only [greedy_5_eval_nearest, hc, hscan, hsw, Option.bind_eq_bind,
        Option.some_bind]
    · intro k' t' hk'
      have hb := hbound k' t' hk'
      rw [zero_add, h1] at hb
      exact_mod_cast hb
    · rw [h2] at hperm
      exact hperm
    · exact hlen'

theorem greedy_5_eval_nearest_zero {cIdx : ℕ} {work cand : List Point} {c : Point}
    (hc : cand.get? cIdx = some c) (hmem : c ∈ work)
    (hlen : work.length ≤ N_RESAMPLED_POINTS) :
    ∃ work', greedy_5_eval_nearest cIdx work cand = some ((0 : WithTop ℚ), work') ∧
      work.Perm (c :: work') := by
  have hne : work ≠ [] := List.ne_nil_of_mem hmem
  obtain ⟨m, j0, t0, work', hrun, hj0, hm, hjlt, hbound, hperm, hlen'⟩ :=
    greedy_5_eval_nearest_spec hc hne hlen
  obtain ⟨kv, hkv⟩ := List.mem_iff_get?.mp hmem
  have h1 : m ≤ wcost c c kv := hbound kv c hkv
  have h2 : wcost c c kv = 0 := by rw [wcost, dsq_self, mul_zero]
  have h3 : 0 ≤ m := by
    rw [hm]
    exact wcost_nonneg (lt_of_lt_of_le hjlt hlen) c t0
  have hm0 : m = 0 := le_antisymm (h2 ▸ h1) h3
  have hdz : dsq c t0 = 0 := by
    have hw0 : wcost c t0 j0 = 0 := by rw [← hm, hm0]
    rw [wcost] at hw0
    exact (mul_eq_zero.mp hw0).resolve_left
      (ne_of_gt (weightAt_pos (lt_of_lt_of_le hjlt hlen)))
  have ht0 : t0 = c := (dsq_eq_zero_iff.mp hdz).symm
  refine ⟨work', ?_, ?_⟩
  · rw [hrun, hm0]
    norm_num
  · have hp := perm_get_cons_eraseIdx work j0 t0 hj0
    rw [ht0] at hp
    exact hp.trans ((hperm.symm).cons c)

/-! ### Single passes, offset costs, and the distance fold -/

theorem passLoop_some (a : List Point) :
    ∀ (idxs : List ℕ) (tot : WithTop ℚ) (work : List Point),
      (∀ i ∈ idxs, i < a.length) → idxs.length ≤ work.length →
      work.length ≤ N_RESAMPLED_POINTS →
      ∃ tot' work', passLoop a idxs (tot, work) = some (tot', work') ∧
        work'.length = work.length - idxs.length ∧
        (tot < ⊤ → tot' < ⊤) ∧ (0 ≤ tot → 0 ≤ tot') := by
  intro idxs
  induction idxs with
  | nil =>
    intro tot work _ _ _
    exact ⟨tot, work, rfl, by simp, fun h => h, fun h => h⟩
  | cons i rest ih =>
    intro tot work hidx hlen1 hlen2
    have hi : i < a.length := hidx i (List.mem_cons_self i rest)
    have hc : a.get? i = some (a.get ⟨i, hi⟩) := List.get?_eq_get hi
    have hne : work ≠ [] := by
      intro hw
      subst hw
      simp at hlen1
    obtain ⟨m, j0, t0, work1, hrun, hj0, hm, hjlt, hbound, hperm, hlen'⟩ :=
      greedy_5_eval_nearest_spec hc hne hlen2
    have hm0 : 0 ≤ m := by
      rw [hm]
      exact wcost_nonneg (lt_of_lt_of_le hjlt hlen2) _ _
    obtain ⟨tot', work', hrun', hl, hfin, hnn⟩ :=
      ih (tot + ((m : ℚ) : WithTop ℚ)) work1
        (fun i' hi' => hidx i' (List.mem_cons_of_mem _ hi'))
        (by simp only [List.length_cons] at hlen1; omega)
        (by omega)
    refine ⟨tot', work', ?_, ?_, ?_, ?_⟩
    · rw [passLoop, hrun]
      exact hrun'
    · simp only [List.length_cons]
      omega
    · intro htop
      exact hfin (WithTop.add_lt_top.mpr ⟨htop, WithTop.coe_lt_top _⟩)
    · intro hpos
      refine hnn (add_nonneg hpos ?_)
      exact_mod_cast hm0

theorem passLoop_zero (T : List Point) :
    ∀ (idxs : List ℕ) (rem : List Point) (tot : WithTop ℚ),
      (∀ i ∈ idxs, i < T.length) → (idxs.filterMap T.get?).Perm rem →
      idxs.length ≤ N_RESAMPLED_POINTS →
      ∃ rem', passLoop T idxs (tot, rem) = some (tot, rem') := by
  intro idxs
  induction idxs with
  | nil =>
    intro rem tot _ _ _
    exact ⟨rem, rfl⟩
  | cons i rest ih =>
    intro rem tot hidx hperm hlen
    have hi : i < T.length := hidx i (List.mem_cons_self i rest)
    have hv : T.get? i = some (T.get ⟨i, hi⟩) := List.get?_eq_get hi
    set v := T.get ⟨i, hi⟩ with hvdef
    have hfm : (i :: rest).filterMap T.get? = v :: rest.filterMap T.get? :=
      List.filterMap_cons_some hv
    rw [hfm] at hperm
    have hvmem : v ∈ rem := hperm.subset (List.mem_cons_self v _)
    have hremlen : rem.length ≤ N_RESAMPLED_POINTS := by
      have h1 : rem.length = (v :: rest.filterMap T.get?).length := hperm.length_eq.symm
      have h2 : (rest.filterMap T.get?).length ≤ rest.length :=
        List.length_filterMap_le _ _
      simp only [List.length_cons] at h1
      simp only [List.length_cons] at hlen
      omega
    obtain ⟨rem1, hrun, hpr⟩ := greedy_5_eval_nearest_zero hv hvmem hremlen
    obtain ⟨rem', hrun'⟩ := ih rem1 tot
      (fun i' hi' => hidx i' (List.mem_cons_of_mem _ hi'))
      ((hperm.trans hpr).cons_inv)
      (by simp only [List.length_cons] at hlen; omega)
    refine ⟨rem', ?_⟩
    rw [passLoop, hrun]
    show passLoop T rest (tot + 0, rem1) = some (tot, rem')
    rw [add_zero]
    exact hrun'

theorem wrapIdxs_perm_range {s : ℕ} (hs : s ≤ N_RESAMPLED_POINTS) :
    (wrapIdxs s).Perm (List.range N_RESAMPLED_POINTS) := by
  rw [wrapIdxs]
  have h1 : List.range' 0 s ++ List.range' (0 + s) (N_RESAMPLED_POINTS - s) =
      List.range' 0 ((N_RESAMPLED_POINTS - s) + s) := List.range'_append_1 0 s _
  have h2 : List.range N_RESAMPLED_POINTS =
      List.range' 0 s ++ List.range' s (N_RESAMPLED_POINTS - s) := by
    rw [List.range_eq_range']
    rw [show (0 + s) = s from by omega, show (N_RESAMPLED_POINTS - s) + s =
      N_RESAMPLED_POINTS from by omega] at h1
    exact h1.symm
  rw [h2, List.range_eq_range' s]
  exact List.perm_append_comm

theorem wrapIdxs_mem_lt {s i : ℕ} (hs : s ≤ N_RESAMPLED_POINTS)
    (h : i ∈ wrapIdxs s) : i < N_RESAMPLED_POINTS :=
  List.mem_range.mp ((wrapIdxs_perm_range hs).subset h)

theorem wrapIdxs_length {s : ℕ} (hs : s ≤ N_RESAMPLED_POINTS) :
    (wrapIdxs s).length = N_RESAMPLED_POINTS := by
  rw [(wrapIdxs_perm_range hs).length_eq, List.length_range]

theorem filterMap_get?_range :
    ∀ (l : List Point), (List.range l.length).filterMap l.get? = l
  | [] => by simp
  | x :: xs => by
    rw [List.length_cons, List.range_succ_eq_map]
    rw [List.filterMap_cons_some (by simp : (x :: xs).get? 0 = some x)]
    rw [List.filterMap_map]
    have hcomp : (x :: xs).get? ∘ Nat.succ = xs.get? := by
      funext n
      simp
    rw [hcomp, filterMap_get?_range xs]

theorem passCost_self_zero {T : List Point}
    (hT : T.length = N_RESAMPLED_POINTS) {s : ℕ} (hs : s ≤ N_RESAMPLED_POINTS) :
    passCost T T s = some 0 := by
  have hborder : ∀ i ∈ wrapIdxs s, i < T.length := fun i hi =>
    hT ▸ wrapIdxs_mem_lt hs hi
  have hvals : ((wrapIdxs s).filterMap T.get?).Perm T := by
    have h1 := (wrapIdxs_perm_range hs).filterMap T.get?
    rw [← hT] at h1
    rw [filterMap_get?_range T] at h1
    exact h1
  obtain ⟨rem', hrun⟩ := passLoop_zero T (wrapIdxs s) T 0 hborder hvals
    (le_of_eq (wrapIdxs_length hs))
  rw [passCost, hrun]
  rfl

theorem runPasses_eq (cand tmpl : List Point) :
    ∀ (idxs : List ℕ) (t1 t2 : WithTop ℚ) (w1 w2 : List Point),
      runPasses cand tmpl idxs (t1, w1, t2, w2) =
        (passLoop cand idxs (t1, w1)).bind (fun p =>
          (passLoop tmpl idxs (t2, w2)).map (fun q => (p.1, p.2, q.1, q.2))) := by
  intro idxs
  induction idxs with
  | nil =>
    intro t1 t2 w1 w2
    simp [runPasses, passLoop]
  | cons i rest ih =>
    intro t1 t2 w1 w2
    cases h1 : greedy_5_eval_nearest i w1 cand with
    | none => simp [runPasses, passLoop, h1]
    | some r1 =>
      cases h2 : greedy_5_eval_nearest i w2 tmpl with
      | none =>
        simp only [runPasses, passLoop, h1, h2]
        cases passLoop cand rest (t1 + r1.1, r1.2) <;> simp
      | some r2 =>
        simp only [runPasses, passLoop, h1, h2]
        exact ih (t1 + r1.1) (t2 + r2.1) r1.2 r2.2

theorem offsetCost_eq (cand tmpl : List Point) (s : ℕ) :
    offsetCost cand tmpl s = (passCost cand tmpl s).bind (fun p =>
      (passCost tmpl cand s).map (fun q => min p q)) := by
  rw [offsetCost, runPasses_eq, passCost, passCost]
  cases passLoop cand (wrapIdxs s) (0, tmpl) <;>
    cases passLoop tmpl (wrapIdxs s) (0, cand) <;> simp

theorem passCost_some {a b : List Point} (ha : a.length = N_RESAMPLED_POINTS)
    (hb : b.length = N_RESAMPLED_POINTS) {s : ℕ} (hs : s ≤ N_RESAMPLED_POINTS) :
    ∃ p, passCost a b s = some p ∧ p < ⊤ ∧ 0 ≤ p := by
  obtain ⟨tot', work', hrun, _, hfin, hnn⟩ := passLoop_some a (wrapIdxs s) 0 b
    (fun i hi => ha ▸ wrapIdxs_mem_lt hs hi)
    (by rw [wrapIdxs_length hs, hb])
    (le_of_eq hb)
  refine ⟨tot', ?_, ?_, ?_⟩
  · rw [passCost, hrun]
    rfl
  · exact hfin WithTop.zero_lt_top
  · exact hnn (le_refl 0)

theorem offsetCost_some {cand tmpl : List Point}
    (hc : cand.length = N_RESAMPLED_POINTS) (ht : tmpl.length = N_RESAMPLED_POINTS)
    {s : ℕ} (hs : s ≤ N_RESAMPLED_POINTS) :
    offsetCost cand tmpl s =
      some (min (passCostD cand tmpl s) (passCostD tmpl cand s)) ∧
    min (passCostD cand tmpl s) (passCostD tmpl cand s) < ⊤ := by
  obtain ⟨p, hp, hpfin, _⟩ := passCost_some hc ht hs
  obtain ⟨q, hq, hqfin, _⟩ := passCost_some ht hc hs
  have hd1 : passCostD cand tmpl s = p := by rw [passCostD, hp]; rfl
  have hd2 : passCostD tmpl cand s = q := by rw [passCostD, hq]; rfl
  constructor
  · rw [offsetCost_eq, hp, hq, hd1, hd2]
    rfl
  · rw [hd1, hd2]
    exact lt_of_le_of_lt (min_le_left _ _) hpfin

theorem offsetLoop_eq (cand tmpl : List Point) :
    ∀ (ss : List ℕ) (least : WithTop ℚ),
      (∀ s ∈ ss, offsetCost cand tmpl s = some (offsetCostD cand tmpl s)) →
      offsetLoop cand tmpl ss least =
        some (ss.foldl (fun acc s => min acc (offsetCostD cand tmpl s)) least) := by
  intro ss
  induction ss with
  | nil =>
    intro least _
    rfl
  | cons s rest ih =>
    intro least hall
    rw [offsetLoop, hall s (List.mem_cons_self s rest)]
    show offsetLoop cand tmpl rest (min least (offsetCostD cand tmpl s)) = _
    rw [ih _ (fun s' hs' => hall s' (List.mem_cons_of_mem _ hs'))]
    rfl

theorem foldl_min_eq_inf (f : ℕ → WithTop ℚ) :
    ∀ (n : ℕ) (init : WithTop ℚ),
      (List.range n).foldl (fun a s => min a (f s)) init =
        min init ((Finset.range n).inf f) := by
  intro n
  induction n with
  | zero =>
    intro init
    simp only [List.range_zero, List.foldl_nil, Finset.range_zero, Finset.inf_empty]
    exact (min_eq_left le_top).symm
  | succ n ih =>
    intro init
    rw [List.range_succ, List.foldl_append, ih init]
    show min (min init ((Finset.range n).inf f)) (f n) = _
    rw [Finset.range_succ, Finset.inf_insert]
    rw [min_assoc, min_comm ((Finset.range n).inf f) (f n)]

theorem strokeDistance_eq_inf {cand tmpl : List Point}
    (hc : cand.length = N_RESAMPLED_POINTS) (ht : tmpl.length = N_RESAMPLED_POINTS)
    {n : ℕ} (hn : n ≤ N_RESAMPLED_POINTS) :
    strokeDistance cand tmpl n =
      some ((Finset.range n).inf
        (fun s => min (passCostD cand tmpl s) (passCostD tmpl cand s))) := by
  have hall : ∀ s ∈ List.range n,
      offsetCost cand tmpl s = some (offsetCostD cand tmpl s) := by
    intro s hs
    have hs' : s ≤ N_RESAMPLED_POINTS :=
      le_of_lt (lt_of_lt_of_le (List.mem_range.mp hs) hn)
    have h := (offsetCost_some hc ht hs').1
    rw [offsetCostD, h]
    rfl
  rw [strokeDistance, offsetLoop_eq cand tmpl _ _ hall, foldl_min_eq_inf]
  rw [min_eq_right le_top]
  congr 1
  refine Finset.inf_congr rfl ?_
  intro s hs
  have hs' : s ≤ N_RESAMPLED_POINTS :=
    le_of_lt (lt_of_lt_of_le (Finset.mem_range.mp hs) hn)
  rw [offsetCostD, (offsetCost_some hc ht hs').1]
  rfl

theorem strokeDistance_finite {cand tmpl : List Point}
    (hc : cand.length = N_RESAMPLED_POINTS) (ht : tmpl.length = N_RESAMPLED_POINTS)
    {n : ℕ} (h1 : 1 ≤ n) (hn : n ≤ N_RESAMPLED_POINTS) :
    ∃ d, strokeDistance cand tmpl n = some d ∧ d < ⊤ := by
  rw [strokeDistance_eq_inf hc ht hn]
  refine ⟨_, rfl, ?_⟩
  have h0 : (0 : ℕ) ∈ Finset.range n := Finset.mem_range.mpr h1
  refine lt_of_le_of_lt (Finset.inf_le h0) ?_
  exact (offsetCost_some hc ht (by omega)).2

/-! ### The store scan of `greedy_5` -/

theorem templateLoop_props {cand : List Point} {n : ℕ} (name : String) :
    ∀ (ts : List Template) (acc : WithTop ℚ × String),
      cand.length = N_RESAMPLED_POINTS →
      (∀ t ∈ ts, t.length = N_RESAMPLED_POINTS) →
      1 ≤ n → n ≤ N_RESAMPLED_POINTS →
      ∃ acc', templateLoop cand n name ts acc = some acc' ∧
        (acc' = acc ∨ (acc'.2 = name ∧ acc'.1 < ⊤)) ∧ acc'.1 ≤ acc.1 ∧
        (ts ≠ [] → acc.1 = ⊤ → acc'.1 < ⊤ ∧ acc'.2 = name) := by
  intro ts
  induction ts with
  | nil =>
    intro acc _ _ _ _
    exact ⟨acc, rfl, Or.inl rfl, le_refl _, fun h => absurd rfl h⟩
  | cons t rest ih =>
    intro acc hcand hts h1 hn
    obtain ⟨d, hd, hdfin⟩ :=
      strokeDistance_finite hcand (hts t (List.mem_cons_self t rest)) h1 hn
    set acc1 := if d < acc.1 then (d, name) else acc with hacc1
    obtain ⟨acc', hrun, ho, hle, _⟩ :=
      ih acc1 hcand (fun t' ht' => hts t' (List.mem_cons_of_mem _ ht')) h1 hn
    have hstep : templateLoop cand n name (t :: rest) acc =
        templateLoop cand n name rest acc1 := by
      rw [templateLoop, hd]
    have hacc1or : acc1 = acc ∨ (acc1.2 = name ∧ acc1.1 < ⊤) := by
      rw [hacc1]
      by_cases hlt : d < acc.1
      · exact Or.inr (by rw [if_pos hlt]; exact ⟨rfl, hdfin⟩)
      · exact Or.inl (if_neg hlt)
    have hacc1le : acc1.1 ≤ acc.1 := by
      rw [hacc1]
      split
      · exact le_of_lt (by assumption)
      · exact le_refl _
    refine ⟨acc', by rw [hstep]; exact hrun, ?_, le_trans hle hacc1le, ?_⟩
    · rcases ho with h | h
      · rw [h]
        exact hacc1or
      · exact Or.inr h
    · intro _ htop
      have hlt : d < acc.1 := by rw [htop]; exact hdfin
      have hacc1eq : acc1 = (d, name) := by rw [hacc1, if_pos hlt]
      have hlefin : acc'.1 ≤ d := by
        rw [hacc1eq] at hle
        exact hle
      refine ⟨lt_of_le_of_lt hlefin hdfin, ?_⟩
      rcases ho with h | h
      · rw [h, hacc1eq]
      · exact h.1

theorem storeLoop_props {cand : List Point} {n : ℕ} :
    ∀ (entries : Store) (acc : WithTop ℚ × String),
      cand.length = N_RESAMPLED_POINTS →
      (∀ e ∈ entries, ∀ t ∈ e.2, t.length = N_RESAMPLED_POINTS) →
      1 ≤ n → n ≤ N_RESAMPLED_POINTS →
      ∃ acc', storeLoop cand n entries acc = some acc' ∧
        (acc' = acc ∨ acc'.2 ∈ entries.map Prod.fst) ∧ acc'.1 ≤ acc.1 ∧
        ((∃ e ∈ entries, e.2 ≠ []) → acc.1 = ⊤ →
          acc'.1 < ⊤ ∧ acc'.2 ∈ entries.map Prod.fst) := by
  intro entries
  induction entries with
  | nil =>
    intro acc _ _ _ _
    refine ⟨acc, rfl, Or.inl rfl, le_refl _, ?_⟩
    rintro ⟨e, he, -⟩
    simp at he
  | cons e rest ih =>
    intro acc hcand hall h1 hn
    obtain ⟨acc1, hrun1, ho1, hle1, hlast1⟩ :=
      templateLoop_props e.1 e.2 acc hcand
        (hall e (List.mem_cons_self e rest)) h1 hn
    obtain ⟨acc', hrun, ho, hle, hlast⟩ :=
      ih acc1 hcand (fun e' he' => hall e' (List.mem_cons_of_mem _ he')) h1 hn
    have hstep : storeLoop cand n (e :: rest) acc = storeLoop cand n rest acc1 := by
      rw [storeLoop, hrun1]
    refine ⟨acc', by rw [hstep]; exact hrun, ?_, le_trans hle hle1, ?_⟩
    · rcases ho with h | h
      · rcases ho1 with h' | h'
        · exact Or.inl (h.trans h')
        · refine Or.inr ?_
          rw [h, h'.1]
          simp
      · refine Or.inr ?_
        simp only [List.map_cons, List.mem_cons]
        exact Or.inr h
    · rintro ⟨e', he', hne'⟩ htop
      rcases List.mem_cons.mp he' with rfl | hmem
      · obtain ⟨hfin1, hname1⟩ := hlast1 hne' htop
        refine ⟨lt_of_le_of_lt hle hfin1, ?_⟩
        rcases ho with h | h
        · rw [h, hname1]
          simp
        · simp only [List.map_cons, List.mem_cons]
          exact Or.inr h
      · by_cases htop1 : acc1.1 = ⊤
        · obtain ⟨hfin, hmem'⟩ := hlast ⟨e', hmem, hne'⟩ htop1
          refine ⟨hfin, ?_⟩
          simp only [List.map_cons, List.mem_cons]
          exact Or.inr hmem'
        · have hfin1 : acc1.1 < ⊤ := lt_of_le_of_ne le_top htop1
          refine ⟨lt_of_le_of_lt hle hfin1, ?_⟩
          have hname1 : acc1.2 = e.1 := by
            rcases ho1 with h' | h'
            · exfalso
              apply htop1
              rw [h', htop]
            · exact h'.1
          rcases ho with h | h
          · rw [h, hname1]
            simp
          · simp only [List.map_cons, List.mem_cons]
            exact Or.inr h

theorem storeLoop_all_empty {cand : List Point} {n : ℕ} :
    ∀ (entries : Store) (acc : WithTop ℚ × String),
      (∀ e ∈ entries, e.2 = []) → storeLoop cand n entries acc = some acc
  | [], _, _ => rfl
  | e :: rest, acc, h => by
    have he : e.2 = [] := h e (List.mem_cons_self e rest)
    rw [storeLoop, he]
    show storeLoop cand n rest acc = some acc
    exact storeLoop_all_empty rest acc (fun e' he' => h e' (List.mem_cons_of_mem _ he'))

/-! ### The number of starting offsets -/

theorem nStarts_pos (epsilon : ℝ) : 1 ≤ nStarts epsilon := by
  rw [nStarts]
  exact Nat.ceil_pos.mpr (Real.rpow_pos_of_pos (by norm_num [N_RESAMPLED_POINTS]) _)

theorem nStarts_mono {e1 e2 : ℝ} (h : e1 ≤ e2) : nStarts e1 ≤ nStarts e2 := by
  rw [nStarts, nStarts]
  exact Nat.ceil_mono
    (Real.rpow_le_rpow_of_exponent_le (by norm_num [N_RESAMPLED_POINTS]) h)

theorem nStarts_le_of_le_one {epsilon : ℝ} (h : epsilon ≤ 1) :
    nStarts epsilon ≤ N_RESAMPLED_POINTS := by
  rw [nStarts, Nat.ceil_le]
  calc (N_RESAMPLED_POINTS : ℝ) ^ epsilon
      ≤ (N_RESAMPLED_POINTS : ℝ) ^ (1 : ℝ) :=
        Real.rpow_le_rpow_of_exponent_le (by norm_num [N_RESAMPLED_POINTS]) h
    _ = (N_RESAMPLED_POINTS : ℝ) := Real.rpow_one _

theorem nStarts_zero : nStarts 0 = 1 := by
  rw [nStarts, Real.rpow_zero, Nat.ceil_one]

theorem nStarts_one : nStarts 1 = N_RESAMPLED_POINTS := by
  rw [nStarts, Real.rpow_one]
  exact Nat.ceil_natCast _

/-! ### The trim loop of `resample` -/

theorem trimTo_eq_take_aux {α : Type} :
    ∀ (k : ℕ) (l : List α), l.length ≤ k → ∀ n, trimTo n l = l.take n := by
  intro k
  induction k with
  | zero =>
    intro l hl n
    have hnil : l = [] := List.length_eq_zero.mp (le_antisymm hl (zero_le _))
    subst hnil
    rw [trimTo]
    simp
  | succ k ih =>
    intro l hl n
    rw [trimTo]
    split
    · next h =>
      rw [ih l.dropLast (by rw [List.length_dropLast]; omega) n]
      rw [List.dropLast_eq_take, List.take_take]
      rw [min_eq_left (by omega : n ≤ l.length - 1)]
    · next h =>
      rw [List.take_of_length_le (by omega)]

theorem trimTo_eq_take {α : Type} (n : ℕ) (l : List α) : trimTo n l = l.take n :=
  trimTo_eq_take_aux l.length l (le_refl _) n

/-! ### Template insertion -/

theorem setInsert_mem (s : List Template) (pts : Template) : pts ∈ setInsert s pts := by
  rw [setInsert]
  split
  · assumption
  · simp

theorem storeInsert_mem : ∀ (store : Store) (label : String) (pts : Template),
    storeMem (storeInsert store label pts) label pts
  | [], label, pts => by
    simp [storeInsert, storeMem, storeMemB]
  | e :: rest, label, pts => by
    rw [storeInsert]
    by_cases h : e.1 = label
    · rw [if_pos h]
      show storeMemB _ _ _ = true
      rw [storeMemB]
      simp [h, setInsert_mem]
    · rw [if_neg h]
      show storeMemB _ _ _ = true
      rw [storeMemB]
      simp only [h, if_false]
      exact storeInsert_mem rest label pts

theorem storeInsert_of_mem : ∀ (store : Store) (label : String) (pts : Template),
    storeMem store label pts → storeInsert store label pts = store
  | [], label, pts, h => by
    exact absurd h (by simp [storeMem, storeMemB])
  | e :: rest, label, pts, h => by
    rw [storeInsert]
    by_cases he : e.1 = label
    · rw [if_pos he]
      have hm : pts ∈ e.2 := by
        have hb : storeMemB (e :: rest) label pts = true := h
        rw [storeMemB, if_pos he] at hb
        exact of_decide_eq_true hb
      rw [setInsert, if_pos hm]
    · rw [if_neg he]
      have hb : storeMemB (e :: rest) label pts = true := h
      rw [storeMemB, if_neg he] at hb
      rw [storeInsert_of_mem rest label pts hb]

theorem storeInsert_absent : ∀ (store : Store) (label : String) (pts : Template),
    label ∉ store.map Prod.fst →
      storeInsert store label pts = store ++ [(label, [pts])]
  | [], _, _, _ => rfl
  | e :: rest, label, pts, h => by
    have he : e.1 ≠ label := by
      intro hc
      exact h (by simp [hc])
    rw [storeInsert, if_neg he,
      storeInsert_absent rest label pts (fun hc => h (by simp [hc]))]
    rfl

/-! ### Claim theorems -/

/-- C5: for every template store with no templates (every label's set is
empty, including the fully empty store), `Recognize` (`greedy_5`) on any
candidate returns the sentinel label "not recognized" and does not fail. -/
theorem c5_empty_store_not_recognized (store : Store) (cand : List Point)
    (epsilon : ℝ) (h : ∀ e ∈ store, e.2 = []) :
    greedy_5 store cand epsilon = some "not recognized" := by
  rw [greedy_5, greedy5_core,
    storeLoop_all_empty store ((⊤ : WithTop ℚ), "not recognized") h]
  rfl

/-- Witness for C5 at a concrete store, candidate and epsilon. -/
theorem c5_empty_store_not_recognized_witness :
    (∀ e ∈ ([("circle", [])] : Store), e.2 = []) ∧
    greedy_5 [("circle", [])] [] 0 = some "not recognized" :=
  ⟨by decide, c5_empty_store_not_recognized _ _ _ (by decide)⟩

/-- C6: for every candidate, `resample` returns the emission walk trimmed from
the end to at most `N` points: it equals `take N` of the walk, has length at
most `N`, and has length exactly `min (walk length) N` — so whenever the walk
emitted at least `N` points ("long enough to be fully sampled") the result has
exactly `N` points. -/
theorem c6_resample_length_invariant (candidate_vectors : List (List RPoint))
    (total_length : ℝ) :
    resample candidate_vectors total_length =
      (resampleWalk candidate_vectors total_length).take N_RESAMPLED_POINTS ∧
    (resample candidate_vectors total_length).length ≤ N_RESAMPLED_POINTS ∧
    (resample candidate_vectors total_length).length =
      min (resampleWalk candidate_vectors total_length).length
        N_RESAMPLED_POINTS := by
  have h : resample candidate_vectors total_length =
      (resampleWalk candidate_vectors total_length).take N_RESAMPLED_POINTS := by
    rw [resample, trimTo_eq_take]
  refine ⟨h, ?_, ?_⟩
  · rw [h, List.length_take]
    exact min_le_left _ _
  · rw [h, List.length_take, min_comm]

/-- C7: the template-store update (`textbox_input_listener`) inserts the point
sequence under the label only when it has exactly `N` points (creating the
label's set when absent, with set semantics making duplicate insertion a
no-op); with fewer than `N` points it leaves the store unchanged and reports a
user-visible reason. -/
theorem c7_add_template_contract (store : Store) (label : String)
    (pts : Template) :
    (pts.length = N_RESAMPLED_POINTS →
      (textbox_input_listener store label pts).1 = storeInsert store label pts ∧
      (textbox_input_listener store label pts).2 = label ++ " gesture added!" ∧
      storeMem (textbox_input_listener store label pts).1 label pts ∧
      (storeMem store label pts →
        (textbox_input_listener store label pts).1 = store) ∧
      (label ∉ store.map Prod.fst →
        (textbox_input_listener store label pts).1 =
          store ++ [(label, [pts])])) ∧
    (pts.length < N_RESAMPLED_POINTS →
      textbox_input_listener store label pts =
        (store, "Gesture drawn has too little resampled points (< 32)")) := by
  constructor
  · intro h32
    rw [textbox_input_listener, if_pos h32]
    exact ⟨rfl, rfl, storeInsert_mem store label pts,
      fun hmem => storeInsert_of_mem store label pts hmem,
      fun habs => storeInsert_absent store label pts habs⟩
  · intro hlt
    rw [textbox_input_listener, if_neg (by omega)]

/-- Witness for C7: a successful 32-point insertion and a rejected short one. -/
theorem c7_add_template_contract_witness :
    (T32.length = N_RESAMPLED_POINTS ∧
      (textbox_input_listener [] "square" T32).1 = storeInsert [] "square" T32 ∧
      storeMem (textbox_input_listener [] "square" T32).1 "square" T32) ∧
    (([] : Template).length < N_RESAMPLED_POINTS ∧
      textbox_input_listener [("square", [T32])] "square" [] =
        ([("square", [T32])],
          "Gesture drawn has too little resampled points (< 32)")) := by
  have h1 := (c7_add_template_contract [] "square" T32).1 (by decide)
  have h2 := (c7_add_template_contract [("square", [T32])] "square" []).2 (by decide)
  exact ⟨⟨by decide, h1.1, h1.2.2.1⟩, ⟨by decide, h2⟩⟩

/-- C1 (code bug): the claim says recognition on a candidate with fewer than
`N` resampled points proceeds and returns a result, but with any stored
template the matcher indexes `candidate[candidate_index]` out of bounds and
panics (modelled `none`): here a store holding one 32-point template and an
empty resampled candidate (a single-point stroke) at `epsilon = 0`. -/
theorem c1_short_candidate_recognition_panics :
    greedy_5 [("square", [T32])] [] 0 = none := by
  rw [greedy_5, nStarts_zero]
  decide

/-- C2 (code bug): the claim says `Normalize` (`scale_and_translate`) guards
the `scale == 0` division, but the code divides unconditionally: on a sequence
of identical points (degenerate bounding box) the `0/0` divisions produce
non-finite coordinates, modelled as `none`. -/
theorem c2_degenerate_bbox_not_guarded :
    scale_and_translate [((1 : ℚ), (2 : ℚ)), ((1 : ℚ), (2 : ℚ))] = none := by
  norm_num [scale_and_translate, scalePoints, qdiv]

/-- C3 counterexample: at the very first consumption (rank 0 in consumption
order), the code does not charge `weights[0] * d²` of the matched point — it
charges `min_j weights[j] * d²` with `j` the index in the working copy.  On
the template `[(1,0), (101/100,0)]` against candidate point `(0,0)` the code
charges `31/32 * (101/100)² = 316231/320000`, while the claim's rank-indexed
cost (`chargedCostSpec`) is `1`. -/
theorem c3_weight_index_counterexample :
    (greedy_5_eval_nearest 0 [((1 : ℚ), (0 : ℚ)), ((101 / 100 : ℚ), (0 : ℚ))]
        [((0 : ℚ), (0 : ℚ))]).map Prod.fst =
      some (((316231 / 320000 : ℚ) : WithTop ℚ)) ∧
    chargedCostSpec 0 ((0 : ℚ), (0 : ℚ))
        [((1 : ℚ), (0 : ℚ)), ((101 / 100 : ℚ), (0 : ℚ))] = some 1 ∧
    ((316231 / 320000 : ℚ) : WithTop ℚ) ≠ ((1 : ℚ) : WithTop ℚ) := by
  have hw0 : get_weights.get? 0 = some 1 := by
    rw [get_weights_get? (by norm_num [N_RESAMPLED_POINTS])]
    norm_num [weightAt]
  have hw1 : get_weights.get? 1 = some (31 / 32) := by
    rw [get_weights_get? (by norm_num [N_RESAMPLED_POINTS])]
    norm_num [weightAt, N_RESAMPLED_POINTS]
  refine ⟨?_, ?_, ?_⟩
  · simp only [greedy_5_eval_nearest, evalScan, hw0, hw1, List.get?_cons_zero,
      Option.bind_eq_bind, Option.some_bind]
    norm_num [dsq, swapRemove, WithTop.coe_lt_top, WithTop.coe_lt_coe,
      WithTop.coe_eq_coe]
  · simp only [chargedCostSpec, List.map_cons, List.map_nil, hw0]
    norm_num [dsq, min_def]
  · rw [Ne, WithTop.coe_eq_coe]
    norm_num

/-- C3 amended: in each greedy step the cost charged is
`weights[j] * squared_euclidean_distance` where `j` is the matched point's
current index in the mutable working copy (positions shift under
`swap_remove`) — the charged cost is the minimum of that weighted cost over
the working copy, and the matched point is removed. -/
theorem c3_weight_index_amended {cIdx : ℕ} {work cand : List Point} {c : Point}
    (hc : cand.get? cIdx = some c) (hne : work ≠ [])
    (hlen : work.length ≤ N_RESAMPLED_POINTS) :
    ∃ (m : ℚ) (j0 : ℕ) (t0 : Point) (work' : List Point),
      greedy_5_eval_nearest cIdx work cand = some (((m : ℚ) : WithTop ℚ), work') ∧
      work.get? j0 = some t0 ∧ m = weightAt j0 * dsq c t0 ∧
      (∀ j t, work.get? j = some t → m ≤ weightAt j * dsq c t) ∧
      work'.Perm (work.eraseIdx j0) := by
  obtain ⟨m, j0, t0, work', hrun, hj0, hm, _, hbound, hperm, _⟩ :=
    greedy_5_eval_nearest_spec hc hne hlen
  rw [wcost] at hm
  exact ⟨m, j0, t0, work', hrun, hj0, hm,
    fun j t hj => by have := hbound j t hj; rw [wcost] at this; exact this, hperm⟩

/-- Witness for the amended C3 at a concrete working copy and candidate. -/
theorem c3_weight_index_amended_witness :
    ([((0 : ℚ), (0 : ℚ))].get? 0 = some ((0 : ℚ), (0 : ℚ))) ∧
    (∃ (m : ℚ) (j0 : ℕ) (t0 : Point) (work' : List Point),
      greedy_5_eval_nearest 0 [((1 : ℚ), (0 : ℚ)), ((101 / 100 : ℚ), (0 : ℚ))]
          [((0 : ℚ), (0 : ℚ))] = some (((m : ℚ) : WithTop ℚ), work') ∧
      [((1 : ℚ), (0 : ℚ)), ((101 / 100 : ℚ), (0 : ℚ))].get? j0 = some t0 ∧
      m = weightAt j0 * dsq ((0 : ℚ), (0 : ℚ)) t0 ∧
      (∀ j t, [((1 : ℚ), (0 : ℚ)), ((101 / 100 : ℚ), (0 : ℚ))].get? j = some t →
        m ≤ weightAt j * dsq ((0 : ℚ), (0 : ℚ)) t) ∧
      work'.Perm ([((1 : ℚ), (0 : ℚ)),
        ((101 / 100 : ℚ), (0 : ℚ))].eraseIdx j0)) :=
  ⟨by decide, c3_weight_index_amended (by decide) (by decide) (by decide)⟩

/-- C4 counterexample: `n_starts = ceil(N^epsilon)` is not clamped to `N`:
at `epsilon = 2` the code tries `ceil(32²) = 1024 > 32` starting offsets. -/
theorem c4_nstarts_exceeds_N_counterexample :
    nStarts 2 = 1024 ∧ N_RESAMPLED_POINTS < nStarts 2 := by
  have h : nStarts 2 = 1024 := by
    rw [nStarts]
    have h2 : ((N_RESAMPLED_POINTS : ℕ) : ℝ) ^ (2 : ℝ) = 1024 := by
      rw [show (2 : ℝ) = ((2 : ℕ) : ℝ) by norm_num, Real.rpow_natCast]
      norm_num [N_RESAMPLED_POINTS]
    rw [h2]
    norm_num
  exact ⟨h, by rw [h]; decide⟩

/-- C4 amended: for every `epsilon ≤ 1`, the elastic distance tries exactly
`n_starts = ceil(N^epsilon) ≤ N` starting offsets, each offset's candidate
cost is the minimum of the forward pass (candidate against template) and the
backward pass (template against candidate), and the result is the minimum
candidate cost over all tried offsets. -/
theorem c4_distance_min_structure_amended (epsilon : ℝ) (cand tmpl : List Point)
    (heps : epsilon ≤ 1) (hc : cand.length = N_RESAMPLED_POINTS)
    (ht : tmpl.length = N_RESAMPLED_POINTS) :
    nStarts epsilon ≤ N_RESAMPLED_POINTS ∧
    strokeDistance cand tmpl (nStarts epsilon) =
      some ((Finset.range (nStarts epsilon)).inf
        (fun s => min (passCostD cand tmpl s) (passCostD tmpl cand s))) := by
  have h := nStarts_le_of_le_one heps
  exact ⟨h, strokeDistance_eq_inf hc ht h⟩

/-- Witness for the amended C4 at `epsilon = 1` and concrete sequences. -/
theorem c4_distance_min_structure_amended_witness :
    (1 : ℝ) ≤ 1 ∧ nStarts 1 ≤ N_RESAMPLED_POINTS ∧
    strokeDistance T32 T32 (nStarts 1) =
      some ((Finset.range (nStarts 1)).inf
        (fun s => min (passCostD T32 T32 s) (passCostD T32 T32 s))) := by
  have h := c4_distance_min_structure_amended 1 T32 T32 (le_refl 1)
    (by decide) (by decide)
  exact ⟨le_refl 1, h.1, h.2⟩

/-- C8: the elastic distance of a canonical `N`-point sequence against an
identical copy is exactly zero for any in-range number of starting offsets:
each greedy step can consume a remaining point at squared distance 0. -/
theorem c8_self_distance_zero (T : List Point) (n : ℕ)
    (hT : T.length = N_RESAMPLED_POINTS) (h1 : 1 ≤ n)
    (hn : n ≤ N_RESAMPLED_POINTS) :
    strokeDistance T T n = some 0 := by
  rw [strokeDistance_eq_inf hT hT hn]
  congr 1
  have hz : ∀ s ∈ Finset.range n,
      min (passCostD T T s) (passCostD T T s) = (0 : WithTop ℚ) := by
    intro s hs
    have hs' : s ≤ N_RESAMPLED_POINTS :=
      le_of_lt (lt_of_lt_of_le (Finset.mem_range.mp hs) hn)
    have hp := passCost_self_zero hT hs'
    rw [passCostD, hp]
    simp
  rw [Finset.inf_congr rfl hz]
  exact Finset.inf_const (Finset.nonempty_range_iff.mpr (by omega)) 0

/-- Witness for C8 at a concrete 32-point sequence with one offset. -/
theorem c8_self_distance_zero_witness :
    T32.length = N_RESAMPLED_POINTS ∧ strokeDistance T32 T32 1 = some 0 :=
  ⟨by decide, c8_self_distance_zero T32 1 (by decide) (by decide) (by decide)⟩

/-- C9: for `epsilon1 ≤ epsilon2` with the larger offset count in range, the
elastic distance computed with `epsilon2` is at most the one computed with
`epsilon1`: the set of tried starting offsets only grows and the result is a
minimum over it. -/
theorem c9_epsilon_monotonicity (cand tmpl : List Point) (e1 e2 : ℝ)
    (hc : cand.length = N_RESAMPLED_POINTS) (ht : tmpl.length = N_RESAMPLED_POINTS)
    (h12 : e1 ≤ e2) (h2 : nStarts e2 ≤ N_RESAMPLED_POINTS) :
    ∃ d1 d2, strokeDistance cand tmpl (nStarts e1) = some d1 ∧
      strokeDistance cand tmpl (nStarts e2) = some d2 ∧ d2 ≤ d1 := by
  have h1 : nStarts e1 ≤ N_RESAMPLED_POINTS := le_trans (nStarts_mono h12) h2
  rw [strokeDistance_eq_inf hc ht h1, strokeDistance_eq_inf hc ht h2]
  refine ⟨_, _, rfl, rfl, ?_⟩
  exact Finset.inf_mono (Finset.range_subset.mpr (nStarts_mono h12))

/-- Witness for C9 at `epsilon1 = 0`, `epsilon2 = 1` on concrete sequences. -/
theorem c9_epsilon_monotonicity_witness :
    (0 : ℝ) ≤ 1 ∧ nStarts 1 ≤ N_RESAMPLED_POINTS ∧
    ∃ d1 d2, strokeDistance T32 T32 (nStarts 0) = some d1 ∧
      strokeDistance T32 T32 (nStarts 1) = some d2 ∧ d2 ≤ d1 :=
  ⟨by norm_num, le_of_eq nStarts_one,
    c9_epsilon_monotonicity T32 T32 0 1 (by decide) (by decide) (by norm_num)
      (le_of_eq nStarts_one)⟩

/-- C10: with at least one stored template (all templates canonical `N`-point
sequences), recognition of an `N`-point candidate returns a label that is a
key of the store; "not recognized" is only possible when it is itself a key,
so a store not using that label never reports it. -/
theorem c10_nonempty_store_returns_key (store : Store) (cand : List Point)
    (epsilon : ℝ) (hc : cand.length = N_RESAMPLED_POINTS)
    (hall : ∀ e ∈ store, ∀ t ∈ e.2, t.length = N_RESAMPLED_POINTS)
    (hne : ∃ e ∈ store, e.2 ≠ []) (heps : nStarts epsilon ≤ N_RESAMPLED_POINTS) :
    ∃ r, greedy_5 store cand epsilon = some r ∧ r ∈ store.map Prod.fst ∧
      ("not recognized" ∉ store.map Prod.fst → r ≠ "not recognized") := by
  obtain ⟨acc', hrun, _, _, hlast⟩ :=
    storeLoop_props store ((⊤ : WithTop ℚ), "not recognized") hc hall
      (nStarts_pos epsilon) heps
  obtain ⟨_, hmem⟩ := hlast hne rfl
  refine ⟨acc'.2, ?_, hmem, ?_⟩
  · rw [greedy_5, greedy5_core, hrun]
    rfl
  · intro hnr hr
    exact hnr (hr ▸ hmem)

/-- Witness for C10 at a concrete one-template store, candidate and epsilon. -/
theorem c10_nonempty_store_returns_key_witness :
    T32.length = N_RESAMPLED_POINTS ∧ nStarts 0 ≤ N_RESAMPLED_POINTS ∧
    ∃ r, greedy_5 [("square", [T32])] T32 0 = some r ∧
      r ∈ ([("square", [T32])] : Store).map Prod.fst ∧
      ("not recognized" ∉ ([("square", [T32])] : Store).map Prod.fst →
        r ≠ "not recognized") :=
  ⟨by decide, by rw [nStarts_zero]; decide,
    c10_nonempty_store_returns_key _ _ _ (by decide) (by decide) (by decide)
      (by rw [nStarts_zero]; decide)⟩

/-! ### A concrete fully-sampled stroke

The "fully sampled" case of C6 is realizable: the walk of the single straight
stroke from `(0,0)` to `(32,0)` with total length `32` emits exactly `N`
points. -/

theorem rdist_line {k : ℕ} (hk : k ≤ 31) :
    rdist ((k : ℝ), 0) ((32 : ℝ), 0) = 32 - (k : ℝ) := by
  rw [rdist]
  have hk' : (k : ℝ) ≤ 31 := by exact_mod_cast hk
  rw [show ((k : ℝ) - 32) ^ 2 + ((0 : ℝ) - 0) ^ 2 = (32 - (k : ℝ)) ^ 2 by ring]
  exact Real.sqrt_sq (by linarith)

theorem rlerp_line {k : ℕ} (hk : k ≤ 31) :
    rlerp ((k : ℝ), 0) ((32 : ℝ), 0) ((1 - 0) / (32 - (k : ℝ))) =
      ((k : ℝ) + 1, 0) := by
  have hk' : (k : ℝ) ≤ 31 := by exact_mod_cast hk
  have hne : (32 : ℝ) - (k : ℝ) ≠ 0 := by linarith
  rw [rlerp]
  refine Prod.ext ?_ ?_
  · show (k : ℝ) + (32 - (k : ℝ)) * ((1 - 0) / (32 - (k : ℝ))) = (k : ℝ) + 1
    field_simp
  · show (0 : ℝ) + (0 - 0) * ((1 - 0) / (32 - (k : ℝ))) = 0
    ring

theorem resampleWhile_line :
    ∀ (j k : ℕ), k + j = 31 → ∀ (acc : List RPoint), acc.length = k + 1 →
      ((resampleWhile 1 acc 0 ((k : ℝ), 0) ((32 : ℝ), 0)).1).length =
        N_RESAMPLED_POINTS := by
  intro j
  induction j with
  | zero =>
    intro k hk acc hacc
    have hk31 : k = 31 := by omega
    subst hk31
    rw [resampleWhile, dif_neg]
    · show acc.length = N_RESAMPLED_POINTS
      rw [hacc]
      rfl
    · rintro ⟨-, hlt⟩
      rw [hacc] at hlt
      exact absurd hlt (by decide)
  | succ j ih =>
    intro k hk acc hacc
    have hk' : k ≤ 30 := by omega
    have hd := rdist_line (show k ≤ 31 by omega)
    have hcond : 1 ≤ rdist ((k : ℝ), 0) ((32 : ℝ), 0) + 0 ∧
        acc.length < N_RESAMPLED_POINTS := by
      constructor
      · rw [hd, add_zero]
        have hkr : (k : ℝ) ≤ 30 := by exact_mod_cast hk'
        linarith
      · rw [hacc]
        show k + 1 < 32
        omega
    rw [resampleWhile, dif_pos hcond, hd, rlerp_line (show k ≤ 31 by omega)]
    rw [show ((k : ℝ) + 1, (0 : ℝ)) = (((k + 1 : ℕ) : ℝ), (0 : ℝ)) by push_cast; rfl]
    exact ih (k + 1) (by omega) (acc ++ [(((k + 1 : ℕ) : ℝ), 0)])
      (by simp [hacc])

theorem resample_full_line :
    (resample [[((0 : ℝ), (0 : ℝ)), ((32 : ℝ), (0 : ℝ))]] 32).length =
      N_RESAMPLED_POINTS := by
  have hinc : (32 : ℝ) / ((N_RESAMPLED_POINTS : ℕ) : ℝ) = 1 := by
    norm_num [N_RESAMPLED_POINTS]
  have hwalk :
      (resampleWalk [[((0 : ℝ), (0 : ℝ)), ((32 : ℝ), (0 : ℝ))]] 32).length =
        N_RESAMPLED_POINTS := by
    show ((resampleWhile ((32 : ℝ) / ((N_RESAMPLED_POINTS : ℕ) : ℝ))
        [((0 : ℝ), (0 : ℝ))] 0 ((0 : ℝ), (0 : ℝ))
        ((32 : ℝ), (0 : ℝ))).1).length = N_RESAMPLED_POINTS
    rw [hinc]
    rw [show ((0 : ℝ), (0 : ℝ)) = (((0 : ℕ) : ℝ), (0 : ℝ)) by norm_num]
    exact resampleWhile_line 31 0 rfl [(((0 : ℕ) : ℝ), 0)] (by simp)
  rw [resample, trimTo_eq_take, List.length_take, hwalk]
  exact min_self _

end StrokeRec
